import Mathlib

/-!
Verification of the kinematics library `k` (forward/inverse kinematics over a
link/joint tree).  The development shallowly embeds the Rust code of
`src/rctree_links.rs` (kinematic chains `RcKinematicChain` and trees
`RcLinkTree`).  The modules `joints.rs`, `links.rs`, `rctree.rs` and
`errors.rs` are declared by `lib.rs` but their sources are not part of the
repository snapshot; the definitions they provide (joint/link data model,
`calc_transform`, `set_joint_angle`, the node tree and its pre-order
traversal) are modelled from the specification and marked as such.

The rigid-transform type `Isometry3<T>` is an external math primitive; the
embedded code only ever composes transforms with `*` and uses the identity,
so the embedding is generic over a type `Iso` with `Mul` and `One`
instances.  Likewise the scalar type `T` is generic (a linear order is
needed for the joint-limit check), and joint axes are an opaque type `V`.
-/

/-- Equality of `Except` values is decidable when it is on both sides; the
witnesses below evaluate chain operations that return `Except` results. -/
instance {ε α : Type} [DecidableEq ε] [DecidableEq α] :
    DecidableEq (Except ε α) := fun a b =>
  match a, b with
  | .error e, .error e' =>
    if h : e = e' then .isTrue (by rw [h]) else
      .isFalse (fun hc => h (by cases hc; rfl))
  | .error _, .ok _ => .isFalse (fun hc => by cases hc)
  | .ok _, .error _ => .isFalse (fun hc => by cases hc)
  | .ok v, .ok v' =>
    if h : v = v' then .isTrue (by rw [h]) else
      .isFalse (fun hc => h (by cases hc; rfl))

namespace K

/-- Modelled from the spec (errors.rs is not in src): the error taxonomy of
section 7 restricted to the kinds reachable from the embedded code.
`SizeMisMatch` keeps the source spelling used in `rctree_links.rs`. -/
inductive JointError where
  | SizeMisMatch
  | OutOfLimit
  | Unsupported
  deriving DecidableEq, Repr

/-- Modelled from the spec (joints.rs is not in src): an inclusive
joint-limit range. -/
structure Range (T : Type) where
  min : T
  max : T
  deriving DecidableEq, Repr

/-- Modelled from the spec (joints.rs is not in src): joint variants
`{Fixed, Rotational{axis}, Linear{axis}}`. -/
inductive JointType (V : Type) where
  | Fixed
  | Rotational (axis : V)
  | Linear (axis : V)
  deriving DecidableEq, Repr

/-- Modelled from the spec (joints.rs is not in src): a joint has a type, a
current scalar value (meaningful only for non-fixed joints), and an
optional inclusive limit range. -/
structure Joint (V T : Type) where
  name : String
  jointType : JointType V
  angle : T
  limits : Option (Range T)
  deriving DecidableEq, Repr

/-- The transform contributed by a joint depends on the external math
library (rotation about an axis, translation along an axis).  The embedding
abstracts those two constructors. -/
structure MathModel (V T Iso : Type) where
  rot : V → T → Iso
  lin : V → T → Iso

variable {V T Iso : Type}

/-- Modelled from the spec (joints.rs is not in src): a `Fixed` joint never
reports a scalar value; all other variants report exactly one. -/
def Joint.get_joint_angle (j : Joint V T) : Option T :=
  match j.jointType with
  | .Fixed => none
  | _ => some j.angle

/-- Modelled from the spec (joints.rs is not in src): true exactly when the
joint is not `Fixed`. -/
def Joint.has_joint_angle (j : Joint V T) : Bool :=
  match j.jointType with
  | .Fixed => false
  | _ => true

/-- Modelled from the spec (joints.rs is not in src): setting a value
outside the declared inclusive limits fails with `OutOfLimit`; setting a
value on a `Fixed` joint fails with `Unsupported` (the spec leaves the
fixed-joint policy open; this branch is unreachable from the chain/tree
setters, which filter fixed joints out first). -/
def Joint.set_joint_angle [LinearOrder T] (j : Joint V T) (a : T) :
    Except JointError (Joint V T) :=
  match j.jointType with
  | .Fixed => .error .Unsupported
  | _ =>
    match j.limits with
    | some r => if a < r.min ∨ r.max < a then .error .OutOfLimit
                else .ok { j with angle := a }
    | none => .ok { j with angle := a }

/-- Modelled from the spec (joints.rs is not in src): identity for `Fixed`,
rotation about the axis by the current angle for `Rotational`, translation
along the axis by the current displacement for `Linear`. -/
def Joint.local_transform [One Iso] (M : MathModel V T Iso) (j : Joint V T) : Iso :=
  match j.jointType with
  | .Fixed => 1
  | .Rotational ax => M.rot ax j.angle
  | .Linear ax => M.lin ax j.angle

/-- Modelled from the spec (links.rs is not in src): a link holds a name, a
fixed parent-relative offset, one joint, and a cached world transform. -/
structure Link (V T Iso : Type) where
  name : String
  transform : Iso
  joint : Joint V T
  world_transform_cache : Option Iso
  deriving DecidableEq, Repr

/-- Modelled from the spec (links.rs is not in src): a link's local
transform is the fixed offset composed with the joint's transform. -/
def Link.calc_transform [Mul Iso] [One Iso] (M : MathModel V T Iso)
    (l : Link V T Iso) : Iso :=
  l.transform * l.joint.local_transform M

/-- Modelled from the spec (links.rs is not in src): delegates to the joint. -/
def Link.has_joint_angle (l : Link V T Iso) : Bool :=
  l.joint.has_joint_angle

/-- Modelled from the spec (links.rs is not in src): delegates to the joint. -/
def Link.get_joint_angle (l : Link V T Iso) : Option T :=
  l.joint.get_joint_angle

/-- Modelled from the spec (links.rs is not in src): delegates to the joint;
the link is updated only when the joint accepts the value. -/
def Link.set_joint_angle [LinearOrder T] (l : Link V T Iso) (a : T) :
    Except JointError (Link V T Iso) :=
  match l.joint.set_joint_angle a with
  | .error e => .error e
  | .ok j => .ok { l with joint := j }

/-- Embeds `RcKinematicChain<T>` (rctree_links.rs lines 33-38): a named
ordered root-to-tip list of links, a base transform, and an optional
end-link name.  The Rust links are `Rc<RefCell<_>>` nodes of a shared tree;
a chain is a path, so its links are distinct nodes and are embedded by
value.  Mutating methods return the updated chain. -/
structure RcKinematicChain (V T Iso : Type) where
  name : String
  links : List (Link V T Iso)
  transform : Iso
  end_link_name : Option String
  deriving DecidableEq, Repr

/-- Embeds the loop of `calc_end_transform` (rctree_links.rs lines 75-86):
multiply the accumulator by each link's local transform in order, returning
early right after the first link whose name equals the end-link name. -/
def calcEndTransformAux [Mul Iso] [One Iso] (M : MathModel V T Iso)
    (endName : Option String) : Iso → List (Link V T Iso) → Iso
  | acc, [] => acc
  | acc, l :: rest =>
    let acc' := acc * l.calc_transform M
    match endName with
    | some n => if n = l.name then acc' else calcEndTransformAux M endName acc' rest
    | none => calcEndTransformAux M none acc' rest

/-- Embeds `RcKinematicChain::calc_end_transform` (rctree_links.rs 75-86). -/
def RcKinematicChain.calc_end_transform [Mul Iso] [One Iso]
    (M : MathModel V T Iso) (c : RcKinematicChain V T Iso) : Iso :=
  calcEndTransformAux M c.end_link_name c.transform c.links

/-- Embeds the `scan` of `calc_link_transforms` (rctree_links.rs 93-101):
the running product of the base transform with each link's local transform,
one entry per link. -/
def scanTransforms [Mul Iso] [One Iso] (M : MathModel V T Iso) :
    Iso → List (Link V T Iso) → List Iso
  | _, [] => []
  | base, l :: rest =>
    let b := base * l.calc_transform M
    b :: scanTransforms M b rest

/-- Embeds `RcKinematicChain::calc_link_transforms` (rctree_links.rs
93-101). -/
def RcKinematicChain.calc_link_transforms [Mul Iso] [One Iso]
    (M : MathModel V T Iso) (c : RcKinematicChain V T Iso) : List Iso :=
  scanTransforms M c.transform c.links

/-- Embeds `RcKinematicChain::get_joint_angles` (rctree_links.rs 129-134):
`filter_map` of `get_joint_angle` over the links. -/
def RcKinematicChain.get_joint_angles (c : RcKinematicChain V T Iso) : List T :=
  c.links.filterMap Link.get_joint_angle

/-- Embeds the assignment loop of `set_joint_angles` (rctree_links.rs
124-126): walk the links, consuming one angle per link that has a joint
angle; `try!` stops at the first per-joint error, leaving that link and
everything after it untouched while keeping earlier updates. -/
def assignAngles [LinearOrder T] :
    List (Link V T Iso) → List T → Except JointError Unit × List (Link V T Iso)
  | [], _ => (.ok (), [])
  | l :: rest, angles =>
    if l.has_joint_angle then
      match angles with
      | [] => (.ok (), l :: rest)
      | a :: as_ =>
        match l.set_joint_angle a with
        | .error e => (.error e, l :: rest)
        | .ok l' =>
          let (r, rest') := assignAngles rest as_
          (r, l' :: rest')
    else
      let (r, rest') := assignAngles rest angles
      (r, l :: rest')

/-- Embeds `RcKinematicChain::set_joint_angles` (rctree_links.rs 114-128):
the links with a joint angle are counted first; on a length mismatch the
call fails with `SizeMisMatch` before any assignment; otherwise angles are
assigned positionally in chain order. -/
def RcKinematicChain.set_joint_angles [LinearOrder T]
    (c : RcKinematicChain V T Iso) (angles : List T) :
    Except JointError Unit × RcKinematicChain V T Iso :=
  if (c.links.filter Link.has_joint_angle).length ≠ angles.length then
    (.error .SizeMisMatch, c)
  else
    let (r, links') := assignAngles c.links angles
    (r, { c with links := links' })

/-- Embeds `RcKinematicChain::set_end_link_name` (rctree_links.rs 44-55):
fails when no link in the chain carries the name, otherwise records it. -/
def RcKinematicChain.set_end_link_name (c : RcKinematicChain V T Iso)
    (n : String) : Except String Unit × RcKinematicChain V T Iso :=
  if (c.links.find? (fun l => l.name = n)).isNone then
    (.error (n ++ " not found"), c)
  else
    (.ok (), { c with end_link_name := some n })

/-- Modelled from the spec (rctree.rs is not in src): a node owns its
payload link and an ordered list of child nodes; the parent back-reference
of the Rust `Node` is recovered below when the tree is flattened. -/
inductive LinkNode (V T Iso : Type) where
  | node (data : Link V T Iso) (children : List (LinkNode V T Iso))

mutual

/-- Modelled from the spec (rctree.rs is not in src): `map_descendants`
walks the subtree depth-first, pre-order, in child-insertion order.  The
flattening records, for every visited node, the index of its parent inside
the flattened list itself (`none` for the node the walk started at);
`parent` is the index to attach to the root of `t` and `start` is the index
at which `t`'s own entries begin. -/
def LinkNode.flattenAux : Option Nat → Nat → LinkNode V T Iso →
    List (Option Nat × Link V T Iso)
  | parent, start, .node data children =>
    (parent, data) :: flattenChildrenAux start (start + 1) children

/-- Pre-order flattening of a list of sibling subtrees whose common parent
sits at index `parent`, the first sibling's entries starting at `start`. -/
def flattenChildrenAux : Nat → Nat → List (LinkNode V T Iso) →
    List (Option Nat × Link V T Iso)
  | _, _, [] => []
  | parent, start, c :: cs =>
    LinkNode.flattenAux (some parent) start c
      ++ flattenChildrenAux parent
           (start + (LinkNode.flattenAux (some parent) start c).length) cs

end

/-- The flattened pre-order traversal of a whole tree, rooted at index 0. -/
def LinkNode.flatten (t : LinkNode V T Iso) : List (Option Nat × Link V T Iso) :=
  t.flattenAux none 0

/-- Embeds `RcLinkTree<T>` (rctree_links.rs 187-191): the flattened,
traversal-ordered node list `expanded_robot_link_vec`, with each node's
parent back-reference embedded as an index into the same list. -/
structure RcLinkTree (V T Iso : Type) where
  name : String
  expanded_robot_link_vec : List (Option Nat × Link V T Iso)
  deriving DecidableEq, Repr

/-- Embeds `RcLinkTree::new` (rctree_links.rs 199-205): flattens the root
node with `map_descendants`. -/
def RcLinkTree.new (n : String) (root : LinkNode V T Iso) : RcLinkTree V T Iso :=
  { name := n, expanded_robot_link_vec := root.flatten }

/-- Embeds `RcLinkTree::dof` (rctree_links.rs 234-236): the number of nodes
whose link has a joint angle, i.e. whose joint is not fixed. -/
def RcLinkTree.dof (t : RcLinkTree V T Iso) : Nat :=
  (t.expanded_robot_link_vec.filter (fun nd => nd.2.has_joint_angle)).length

/-- Embeds `RcLinkTree::get_joint_angles` (rctree_links.rs 247-251):
`filter_map` of `get_joint_angle` over the flattened node list. -/
def RcLinkTree.get_joint_angles (t : RcLinkTree V T Iso) : List T :=
  t.expanded_robot_link_vec.filterMap (fun nd => nd.2.get_joint_angle)

/-- Embeds `RcLinkTree::set_joint_angles` (rctree_links.rs 256-264): the
length is checked against `dof()` before any write; then the non-fixed
links are assigned positionally, stopping at the first per-joint error.
The assignment loop is shared with the chain embedding; parent indices are
untouched and re-attached by position. -/
def RcLinkTree.set_joint_angles [LinearOrder T] (t : RcLinkTree V T Iso)
    (angles : List T) : Except JointError Unit × RcLinkTree V T Iso :=
  if angles.length ≠ t.dof then
    (.error .SizeMisMatch, t)
  else
    let (r, links') := assignAngles (t.expanded_robot_link_vec.map Prod.snd) angles
    (r, { t with expanded_robot_link_vec :=
            (t.expanded_robot_link_vec.map Prod.fst).zip links' })

/-- Embeds the per-node body and the overall iteration of
`RcLinkTree::calc_link_transforms` (rctree_links.rs 282-302), processing
index `k` next with `m` nodes left.  For each node in flattened order: the
parent transform is the parent node's cached world transform — with the
`panic!("cache must exist")` branch embedded as `none` — or the identity
for the root; the node's world transform is parent transform times local
transform; the cache is written before moving on. -/
def calcPassAux [Mul Iso] [One Iso] (M : MathModel V T Iso) :
    Nat → Nat → RcLinkTree V T Iso → Option (List Iso × RcLinkTree V T Iso)
  | 0, _, t => some ([], t)
  | m + 1, k, t =>
    match t.expanded_robot_link_vec[k]? with
    | none => none
    | some (p?, l) =>
      let pt? : Option Iso :=
        match p? with
        | none => some 1
        | some p =>
          match t.expanded_robot_link_vec[p]? with
          | none => none
          | some (_, pl) => pl.world_transform_cache
      match pt? with
      | none => none
      | some pt =>
        let tr := pt * l.calc_transform M
        let t' : RcLinkTree V T Iso :=
          { t with expanded_robot_link_vec :=
              (t.expanded_robot_link_vec.set k
                (p?, { l with world_transform_cache := some tr })) }
        match calcPassAux M m (k + 1) t' with
        | none => none
        | some (rest, t'') => some (tr :: rest, t'')

/-- Embeds `RcLinkTree::calc_link_transforms` (rctree_links.rs 282-302):
one pass over the whole flattened node list.  A `none` result is a panic of
the Rust code (missing parent cache or dangling parent reference). -/
def RcLinkTree.calc_link_transforms [Mul Iso] [One Iso] (M : MathModel V T Iso)
    (t : RcLinkTree V T Iso) : Option (List Iso × RcLinkTree V T Iso) :=
  calcPassAux M t.expanded_robot_link_vec.length 0 t

/-- The parent-before-child property of a flattened node list: every parent
index points strictly earlier in the list. -/
def ParentEarlier (nodes : List (Option Nat × Link V T Iso)) : Prop :=
  ∀ (i p : Nat) (l : Link V T Iso), nodes[i]? = some (some p, l) → p < i

/-- Reference world transform of the node at index `i`, by recursion on a
fuel bound: parent's world transform (identity for the root) times the
node's local transform, exactly as the spec describes the caching pass. -/
def wtFuel [Mul Iso] [One Iso] (M : MathModel V T Iso)
    (nodes : List (Option Nat × Link V T Iso)) : Nat → Nat → Option Iso
  | 0, _ => none
  | fuel + 1, i =>
    match nodes[i]? with
    | none => none
    | some (p?, l) =>
      match p? with
      | none => some (1 * l.calc_transform M)
      | some p =>
        match wtFuel M nodes fuel p with
        | none => none
        | some pt => some (pt * l.calc_transform M)

/-- The cache-independent part of a link: everything `calc_transform`,
names and joints can see. -/
def Link.core (l : Link V T Iso) : String × Iso × Joint V T :=
  (l.name, l.transform, l.joint)

/-- The cache-independent part of a flattened node list. -/
def nodesCore (nodes : List (Option Nat × Link V T Iso)) :
    List (Option Nat × (String × Iso × Joint V T)) :=
  nodes.map (fun nd => (nd.1, nd.2.core))

/-- One step of the left-to-right transform fold: multiply the accumulator
by the link's local transform. -/
def composeStep [Mul Iso] [One Iso] (M : MathModel V T Iso) (acc : Iso)
    (l : Link V T Iso) : Iso :=
  acc * l.calc_transform M

/-- A link with its world-transform cache replaced. -/
def Link.withCache (l : Link V T Iso) (o : Option Iso) : Link V T Iso :=
  { l with world_transform_cache := o }

/-- Overwrite the caches of a prefix of the links (extra links keep their
cache, extra cache values are dropped). -/
def setCachesList : List (Link V T Iso) → List (Option Iso) → List (Link V T Iso)
  | [], _ => []
  | ls, [] => ls
  | l :: ls, o :: os => l.withCache o :: setCachesList ls os

/-- A chain with some of its links' caches overwritten. -/
def RcKinematicChain.withCaches (c : RcKinematicChain V T Iso)
    (cs : List (Option Iso)) : RcKinematicChain V T Iso :=
  { c with links := setCachesList c.links cs }

/-- A concrete instantiation used by the closed witnesses: axes are `Nat`,
scalars and transforms are `Int` (with ordinary multiplication as the
composition). -/
def intModel : MathModel Nat Int Int :=
  { rot := fun ax a => (ax : Int) + a, lin := fun ax a => (ax : Int) + 2 * a }

/-- A concrete rotational-joint link for the witnesses. -/
def mkLink (nm : String) (off : Int) (a : Int) (lim : Option (Range Int)) :
    Link Nat Int Int :=
  { name := nm
    transform := off
    joint := { name := nm ++ "_j", jointType := .Rotational 1, angle := a,
               limits := lim }
    world_transform_cache := none }

/-- A concrete fixed-joint link for the witnesses. -/
def mkFixedLink (nm : String) (off : Int) : Link Nat Int Int :=
  { name := nm
    transform := off
    joint := { name := nm ++ "_j", jointType := .Fixed, angle := 0,
               limits := none }
    world_transform_cache := none }

/-- True exactly on the `Fixed` joint variant. -/
def JointType.isFixed : JointType V → Bool
  | .Fixed => true
  | _ => false

/-- The bound form of the parent-earlier property used while reasoning
about flattening: every parent index recorded in `nodes` stays below
`start` plus the entry's own offset. -/
def BelowStart (nodes : List (Option Nat × Link V T Iso)) (start : Nat) : Prop :=
  ∀ (i p : Nat) (l : Link V T Iso), nodes[i]? = some (some p, l) → p < start + i

/-- A concrete three-node tree (a root with two leaf children) used by the
closed witnesses of the tree claims. -/
def sampleRoot : LinkNode Nat Int Int :=
  .node (mkLink "r" 2 1 none)
    [.node (mkLink "a" 3 1 none) [], .node (mkFixedLink "b" 5) []]

theorem calcEndTransformAux_none [Mul Iso] [One Iso] (M : MathModel V T Iso)
    (ls : List (Link V T Iso)) (acc : Iso) :
    calcEndTransformAux M none acc ls = ls.foldl (composeStep M) acc := by
  induction ls generalizing acc with
  | nil => rfl
  | cons l rest ih => simp [calcEndTransformAux, composeStep, ih]

theorem calcEndTransformAux_stop [Mul Iso] [One Iso] (M : MathModel V T Iso)
    (n : String) (pre : List (Link V T Iso)) (l : Link V T Iso)
    (post : List (Link V T Iso)) (acc : Iso)
    (hpre : ∀ x ∈ pre, x.name ≠ n) (hl : l.name = n) :
    calcEndTransformAux M (some n) acc (pre ++ l :: post)
      = (pre ++ [l]).foldl (composeStep M) acc := by
  induction pre generalizing acc with
  | nil => simp [calcEndTransformAux, composeStep, hl]
  | cons p rest ih =>
    have hp : p.name ≠ n := hpre p (by simp)
    have hne : ¬(n = p.name) := fun h => hp h.symm
    simp only [List.cons_append, calcEndTransformAux, hne, if_false,
      List.foldl_cons]
    exact ih _ (fun x hx => hpre x (by simp [hx]))

/-- Claim C2: `calc_end_transform` is the base transform folded
left-to-right (root-first) with each link's `calc_transform`; with no
end-link name set the whole link sequence is folded, and with an end-link
name set the fold covers exactly the prefix up to and including the first
link of that name, excluding every link after it. -/
theorem calc_end_transform_fold_truncation [Mul Iso] [One Iso]
    (M : MathModel V T Iso) (c : RcKinematicChain V T Iso) :
    (c.end_link_name = none →
      c.calc_end_transform M = c.links.foldl (composeStep M) c.transform) ∧
    (∀ (n : String) (pre : List (Link V T Iso)) (l : Link V T Iso)
        (post : List (Link V T Iso)),
      c.end_link_name = some n → c.links = pre ++ l :: post → l.name = n →
      (∀ x ∈ pre, x.name ≠ n) →
      c.calc_end_transform M = (pre ++ [l]).foldl (composeStep M) c.transform) := by
  constructor
  · intro h
    rw [RcKinematicChain.calc_end_transform, h, calcEndTransformAux_none]
  · intro n pre l post hend hlinks hl hpre
    rw [RcKinematicChain.calc_end_transform, hend, hlinks,
      calcEndTransformAux_stop M n pre l post _ hpre hl]

/-- Witness for C2: the four-link chain of the spec's truncation scenario,
with the end-link name set to the second link; the result is the fold of
the first two links alone. -/
theorem calc_end_transform_fold_truncation_witness :
    RcKinematicChain.calc_end_transform intModel
        { name := "c4"
          links := [mkLink "L0" 2 1 none, mkLink "L1" 3 1 none,
                    mkLink "L2" 5 1 none, mkLink "L3" 7 1 none]
          transform := 1
          end_link_name := some "L1" }
      = ([mkLink "L0" 2 1 none, mkLink "L1" 3 1 none]).foldl
          (composeStep intModel) 1 :=
  (calc_end_transform_fold_truncation intModel _).2 "L1"
    [mkLink "L0" 2 1 none] (mkLink "L1" 3 1 none)
    [mkLink "L2" 5 1 none, mkLink "L3" 7 1 none]
    rfl rfl rfl (by decide)

theorem scanTransforms_length [Mul Iso] [One Iso] (M : MathModel V T Iso)
    (ls : List (Link V T Iso)) (base : Iso) :
    (scanTransforms M base ls).length = ls.length := by
  induction ls generalizing base with
  | nil => rfl
  | cons l rest ih => simp [scanTransforms, ih]

theorem scanTransforms_getElem [Mul Iso] [One Iso] (M : MathModel V T Iso)
    (ls : List (Link V T Iso)) (base : Iso) (i : Nat) (h : i < ls.length) :
    (scanTransforms M base ls)[i]?
      = some ((ls.take (i + 1)).foldl (composeStep M) base) := by
  induction ls generalizing base i with
  | nil => simp at h
  | cons l rest ih =>
    cases i with
    | zero => simp [scanTransforms, composeStep]
    | succ j =>
      have hj : j < rest.length := by simpa using h
      simp only [scanTransforms, List.getElem?_cons_succ, List.take_succ_cons,
        List.foldl_cons]
      exact ih _ j hj

/-- Claim C6: the chain's `calc_link_transforms` returns one transform per
link in chain order, the i-th entry being the cumulative composition of the
base transform with the first i+1 links' local transforms, and the result
ignores the end-link name entirely. -/
theorem chain_calc_link_transforms_cumulative [Mul Iso] [One Iso]
    (M : MathModel V T Iso) (c : RcKinematicChain V T Iso) :
    (c.calc_link_transforms M).length = c.links.length ∧
    (∀ i : Nat, i < c.links.length →
      (c.calc_link_transforms M)[i]?
        = some ((c.links.take (i + 1)).foldl (composeStep M) c.transform)) ∧
    (∀ e : Option String,
      RcKinematicChain.calc_link_transforms M { c with end_link_name := e }
        = c.calc_link_transforms M) := by
  refine ⟨scanTransforms_length M c.links c.transform, ?_, ?_⟩
  · intro i h
    exact scanTransforms_getElem M c.links c.transform i h
  · intro e
    rfl

/-- Witness for C6: the cumulative entry at index 2 of a concrete three-link
chain. -/
theorem chain_calc_link_transforms_cumulative_witness :
    (RcKinematicChain.calc_link_transforms intModel
        { name := "c3"
          links := [mkLink "L0" 2 1 none, mkLink "L1" 3 1 none,
                    mkLink "L2" 5 1 none]
          transform := 1
          end_link_name := none })[2]?
      = some (([mkLink "L0" 2 1 none, mkLink "L1" 3 1 none,
                mkLink "L2" 5 1 none].take 3).foldl (composeStep intModel) 1) :=
  (chain_calc_link_transforms_cumulative intModel _).2.1 2 (by decide)

/-- Claim C3: on a chain or a tree, an angle vector whose length differs
from the number of non-fixed-joint links (the dof) makes `set_joint_angles`
fail with `SizeMisMatch` and leaves the state exactly as it was — the
length check precedes every assignment. -/
theorem set_joint_angles_size_mismatch [LinearOrder T] :
    (∀ (c : RcKinematicChain V T Iso) (angles : List T),
      (c.links.filter Link.has_joint_angle).length ≠ angles.length →
      c.set_joint_angles angles = (.error .SizeMisMatch, c)) ∧
    (∀ (t : RcLinkTree V T Iso) (angles : List T),
      angles.length ≠ t.dof →
      t.set_joint_angles angles = (.error .SizeMisMatch, t)) := by
  constructor
  · intro c angles h
    rw [RcKinematicChain.set_joint_angles, if_pos h]
  · intro t angles h
    rw [RcLinkTree.set_joint_angles, if_pos h]

/-- Witness for C3: a one-joint chain rejects a two-angle vector, and a
one-joint tree rejects an empty vector, both unchanged. -/
theorem set_joint_angles_size_mismatch_witness :
    RcKinematicChain.set_joint_angles
        { name := "c1", links := [mkLink "L0" 2 1 none], transform := 1,
          end_link_name := none } [3, 4]
      = (.error .SizeMisMatch,
         { name := "c1", links := [mkLink "L0" 2 1 none], transform := 1,
           end_link_name := none }) ∧
    RcLinkTree.set_joint_angles
        { name := "t1", expanded_robot_link_vec := [(none, mkLink "L0" 2 1 none)] }
        ([] : List Int)
      = (.error .SizeMisMatch,
         { name := "t1", expanded_robot_link_vec := [(none, mkLink "L0" 2 1 none)] }) :=
  ⟨set_joint_angles_size_mismatch.1 _ [3, 4] (by decide),
   set_joint_angles_size_mismatch.2 _ [] (by decide)⟩

theorem assignAngles_append [LinearOrder T]
    (ls₁ : List (Link V T Iso)) (as₁ : List T) (ls₁' : List (Link V T Iso))
    (hlen : (ls₁.filter Link.has_joint_angle).length = as₁.length)
    (hok : assignAngles ls₁ as₁ = (.ok (), ls₁'))
    (ls₂ : List (Link V T Iso)) (as₂ : List T) :
    assignAngles (ls₁ ++ ls₂) (as₁ ++ as₂)
      = ((assignAngles ls₂ as₂).1, ls₁' ++ (assignAngles ls₂ as₂).2) := by
  induction ls₁ generalizing as₁ ls₁' with
  | nil =>
    have : as₁ = [] := by
      cases as₁ with
      | nil => rfl
      | cons a as_ => simp [List.filter] at hlen
    subst this
    simp only [assignAngles] at hok
    cases hok
    simp
  | cons l rest ih =>
    by_cases hl : l.has_joint_angle
    · cases as₁ with
      | nil =>
        simp [List.filter_cons, hl] at hlen
      | cons a as_ =>
        simp only [List.filter_cons, hl, if_pos, List.length_cons,
          Nat.succ.injEq] at hlen
        simp only [assignAngles, hl, if_pos] at hok
        cases hset : l.set_joint_angle a with
        | error e => rw [hset] at hok; cases hok
        | ok l' =>
          rw [hset] at hok
          cases hrec : assignAngles rest as_ with
          | mk r rest' =>
            rw [hrec] at hok
            cases r with
            | error e => cases hok
            | ok u =>
              cases hok
              simp only [List.cons_append, assignAngles, hl, if_pos, hset,
                List.append_eq]
              rw [ih as_ rest' hlen hrec]
    · have hlb : l.has_joint_angle = false := by simpa using hl
      simp only [List.filter_cons, hlb, Bool.false_eq_true, if_false] at hlen
      simp only [assignAngles, hlb, Bool.false_eq_true, if_false] at hok
      cases hrec : assignAngles rest as₁ with
      | mk r rest' =>
        rw [hrec] at hok
        cases r with
        | error e => cases hok
        | ok u =>
          cases hok
          simp only [List.cons_append, assignAngles, hlb, Bool.false_eq_true,
            if_false, List.append_eq]
          rw [ih as₁ rest' hlen hrec]

/-- Claim C4: on a correctly-sized angle vector, when the joint of link `l`
rejects its value with error `e` after every earlier non-fixed link was
assigned successfully, the chain's `set_joint_angles` returns exactly `e`,
keeps the successful earlier updates (`ls₁'`, no rollback), and leaves the
failing link and every later link untouched. -/
theorem set_joint_angles_partial_update_on_limit_error [LinearOrder T]
    (c : RcKinematicChain V T Iso)
    (ls₁ : List (Link V T Iso)) (l : Link V T Iso) (ls₂ : List (Link V T Iso))
    (as₁ : List T) (a : T) (as₂ : List T)
    (ls₁' : List (Link V T Iso)) (e : JointError)
    (hlinks : c.links = ls₁ ++ l :: ls₂)
    (hsize : (c.links.filter Link.has_joint_angle).length
               = (as₁ ++ a :: as₂).length)
    (hlen₁ : (ls₁.filter Link.has_joint_angle).length = as₁.length)
    (hok : assignAngles ls₁ as₁ = (.ok (), ls₁'))
    (hhas : l.has_joint_angle = true)
    (hfail : l.set_joint_angle a = .error e) :
    c.set_joint_angles (as₁ ++ a :: as₂)
      = (.error e, { c with links := ls₁' ++ l :: ls₂ }) := by
  rw [RcKinematicChain.set_joint_angles, if_neg (by rw [hsize]; exact fun h => h rfl)]
  rw [hlinks, assignAngles_append ls₁ as₁ ls₁' hlen₁ hok (l :: ls₂) (a :: as₂)]
  simp only [assignAngles, hhas, if_pos, hfail]

/-- Witness for C4: a two-joint chain where the first assignment succeeds
and the second violates its limit; the error is `OutOfLimit`, the first
link keeps its new angle, the second keeps its old one. -/
theorem set_joint_angles_partial_update_witness :
    RcKinematicChain.set_joint_angles
        { name := "c2"
          links := [mkLink "L0" 2 1 none, mkLink "L1" 3 1 (some ⟨-1, 1⟩)]
          transform := 1
          end_link_name := none } [7, 9]
      = (.error .OutOfLimit,
         { name := "c2"
           links := [mkLink "L0" 2 7 none, mkLink "L1" 3 1 (some ⟨-1, 1⟩)]
           transform := 1
           end_link_name := none }) :=
  set_joint_angles_partial_update_on_limit_error _
    [mkLink "L0" 2 1 none] (mkLink "L1" 3 1 (some ⟨-1, 1⟩)) []
    [7] 9 [] [mkLink "L0" 2 7 none] .OutOfLimit
    rfl (by decide) (by decide) (by decide) (by decide) (by decide)

/-- Claim C9: `set_end_link_name` fails exactly when no link in the chain
carries the name; on failure the chain is returned unchanged, and on
success only the stored end-link name changes — the link list, the base
transform and the chain name are untouched by construction of the update. -/
theorem set_end_link_name_spec (c : RcKinematicChain V T Iso) (n : String) :
    ((∀ l ∈ c.links, l.name ≠ n) →
      c.set_end_link_name n = (.error (n ++ " not found"), c)) ∧
    ((∃ l ∈ c.links, l.name = n) →
      c.set_end_link_name n = (.ok (), { c with end_link_name := some n })) := by
  constructor
  · intro h
    rw [RcKinematicChain.set_end_link_name, if_pos]
    rw [Option.isNone_iff_eq_none, List.find?_eq_none]
    intro l hl
    simpa using h l hl
  · rintro ⟨l, hl, hname⟩
    rw [RcKinematicChain.set_end_link_name, if_neg]
    intro hnone
    rw [Option.isNone_iff_eq_none, List.find?_eq_none] at hnone
    exact hnone l hl (by simpa using hname)

/-- Witness for C9: on a two-link chain, a missing name fails and leaves
the chain unchanged, while a present name only sets the end-link name. -/
theorem set_end_link_name_spec_witness :
    RcKinematicChain.set_end_link_name
        { name := "c2", links := [mkLink "L0" 2 1 none, mkLink "L1" 3 1 none],
          transform := 1, end_link_name := none } "nope"
      = (.error ("nope" ++ " not found"),
         { name := "c2", links := [mkLink "L0" 2 1 none, mkLink "L1" 3 1 none],
           transform := 1, end_link_name := none }) ∧
    RcKinematicChain.set_end_link_name
        { name := "c2", links := [mkLink "L0" 2 1 none, mkLink "L1" 3 1 none],
          transform := 1, end_link_name := none } "L1"
      = (.ok (),
         { name := "c2", links := [mkLink "L0" 2 1 none, mkLink "L1" 3 1 none],
           transform := 1, end_link_name := some "L1" }) :=
  ⟨(set_end_link_name_spec _ "nope").1 (by decide),
   (set_end_link_name_spec _ "L1").2 ⟨mkLink "L1" 3 1 none, by decide, by decide⟩⟩

theorem calc_transform_withCache [Mul Iso] [One Iso] (M : MathModel V T Iso)
    (l : Link V T Iso) (o : Option Iso) :
    (l.withCache o).calc_transform M = l.calc_transform M := rfl

theorem calcEndTransformAux_setCaches [Mul Iso] [One Iso]
    (M : MathModel V T Iso) (e : Option String)
    (ls : List (Link V T Iso)) (cs : List (Option Iso)) (acc : Iso) :
    calcEndTransformAux M e acc (setCachesList ls cs)
      = calcEndTransformAux M e acc ls := by
  induction ls generalizing cs acc with
  | nil => cases cs <;> rfl
  | cons l rest ih =>
    cases cs with
    | nil => rfl
    | cons o os =>
      simp only [setCachesList, calcEndTransformAux, calc_transform_withCache]
      cases e with
      | none => exact ih os _
      | some n =>
        show (if n = (l.withCache o).name then _ else _) = _
        by_cases hn : n = l.name
        · simp [Link.withCache, hn]
        · simpa [Link.withCache, hn] using ih os _

theorem scanTransforms_setCaches [Mul Iso] [One Iso] (M : MathModel V T Iso)
    (ls : List (Link V T Iso)) (cs : List (Option Iso)) (base : Iso) :
    scanTransforms M base (setCachesList ls cs) = scanTransforms M base ls := by
  induction ls generalizing cs base with
  | nil => cases cs <;> rfl
  | cons l rest ih =>
    cases cs with
    | nil => rfl
    | cons o os =>
      simp only [setCachesList, scanTransforms, calc_transform_withCache]
      rw [ih os]

/-- Claim C10: the chain's `calc_end_transform` and `calc_link_transforms`
are read-only.  They are embedded as pure functions of the chain (the Rust
methods take `&self` and perform no `borrow_mut`), so angles, base
transform, end-link name and link list are untouched by construction; the
substantive part proved here is that both results are invariant under
arbitrarily overwriting every node's world-transform cache — the chain
versions never read the cache, unlike the tree's `calc_link_transforms`. -/
theorem chain_calc_readonly [Mul Iso] [One Iso] (M : MathModel V T Iso)
    (c : RcKinematicChain V T Iso) (cs : List (Option Iso)) :
    (c.withCaches cs).calc_end_transform M = c.calc_end_transform M ∧
    (c.withCaches cs).calc_link_transforms M = c.calc_link_transforms M ∧
    (c.withCaches cs).links = setCachesList c.links cs := by
  refine ⟨?_, ?_, rfl⟩
  · exact calcEndTransformAux_setCaches M c.end_link_name c.links cs c.transform
  · exact scanTransforms_setCaches M c.links cs c.transform

theorem has_joint_angle_eq_not_isFixed (l : Link V T Iso) :
    l.has_joint_angle = !l.joint.jointType.isFixed := by
  cases h : l.joint.jointType <;>
    simp [Link.has_joint_angle, Joint.has_joint_angle, JointType.isFixed, h]

theorem filterMap_get_joint_angle (ls : List (Option Nat × Link V T Iso)) :
    ls.filterMap (fun nd => nd.2.get_joint_angle)
      = (ls.filter (fun nd => nd.2.has_joint_angle)).map
          (fun nd => nd.2.joint.angle) := by
  induction ls with
  | nil => rfl
  | cons nd rest ih =>
    cases h : nd.2.joint.jointType with
    | Fixed =>
      have h1 : nd.2.get_joint_angle = none := by
        simp [Link.get_joint_angle, Joint.get_joint_angle, h]
      have h2 : nd.2.has_joint_angle = false := by
        simp [Link.has_joint_angle, Joint.has_joint_angle, h]
      simp [List.filterMap_cons, List.filter_cons, h1, h2, ih]
    | Rotational ax =>
      have h1 : nd.2.get_joint_angle = some nd.2.joint.angle := by
        simp [Link.get_joint_angle, Joint.get_joint_angle, h]
      have h2 : nd.2.has_joint_angle = true := by
        simp [Link.has_joint_angle, Joint.has_joint_angle, h]
      simp [List.filterMap_cons, List.filter_cons, h1, h2, ih]
    | Linear ax =>
      have h1 : nd.2.get_joint_angle = some nd.2.joint.angle := by
        simp [Link.get_joint_angle, Joint.get_joint_angle, h]
      have h2 : nd.2.has_joint_angle = true := by
        simp [Link.has_joint_angle, Joint.has_joint_angle, h]
      simp [List.filterMap_cons, List.filter_cons, h1, h2, ih]

/-- Claim C5: `dof` is the number of links in the tree whose joint is not
`Fixed`, and `get_joint_angles` returns exactly one scalar (the joint
angle) per non-fixed link of the flattened root-first depth-first node
list, in that order, so its length always equals `dof`. -/
theorem dof_and_get_joint_angles (t : RcLinkTree V T Iso) :
    t.dof = (t.expanded_robot_link_vec.filter
               (fun nd => !nd.2.joint.jointType.isFixed)).length ∧
    t.get_joint_angles = (t.expanded_robot_link_vec.filter
        (fun nd => nd.2.has_joint_angle)).map (fun nd => nd.2.joint.angle) ∧
    t.get_joint_angles.length = t.dof := by
  have hfil : t.expanded_robot_link_vec.filter (fun nd => nd.2.has_joint_angle)
      = t.expanded_robot_link_vec.filter
          (fun nd => !nd.2.joint.jointType.isFixed) := by
    apply List.filter_congr
    intro nd _
    exact has_joint_angle_eq_not_isFixed nd.2
  refine ⟨?_, filterMap_get_joint_angle _, ?_⟩
  · rw [RcLinkTree.dof, hfil]
  · rw [RcLinkTree.get_joint_angles, filterMap_get_joint_angle,
      List.length_map, RcLinkTree.dof]

theorem Link.core_withCache (l : Link V T Iso) (o : Option Iso) :
    (l.withCache o).core = l.core := rfl

theorem calc_transform_of_core_eq [Mul Iso] [One Iso] (M : MathModel V T Iso)
    (l l' : Link V T Iso) (h : l.core = l'.core) :
    l.calc_transform M = l'.calc_transform M := by
  cases l with
  | mk nm tr j cache =>
    cases l' with
    | mk nm' tr' j' cache' =>
      simp only [Link.core, Prod.mk.injEq] at h
      obtain ⟨h1, h2, h3⟩ := h
      simp [Link.calc_transform, h2, h3]

theorem set_self_of_getElem? {α : Type} (xs : List α) (i : Nat) (a : α)
    (h : xs[i]? = some a) : xs.set i a = xs := by
  apply List.ext_getElem?
  intro j
  by_cases hj : i = j
  · subst hj
    rw [List.getElem?_set_self (List.getElem?_eq_some.mp h).1]
    exact h.symm
  · rw [List.getElem?_set_ne hj]

theorem nodesCore_length (xs : List (Option Nat × Link V T Iso)) :
    (nodesCore xs).length = xs.length := List.length_map xs _

theorem nodesCore_getElem? (xs : List (Option Nat × Link V T Iso)) (i : Nat) :
    (nodesCore xs)[i]? = (xs[i]?).map (fun nd => (nd.1, nd.2.core)) := by
  rw [nodesCore, List.getElem?_map]

theorem nodesCore_set_cache (xs : List (Option Nat × Link V T Iso)) (k : Nat)
    (p? : Option Nat) (l : Link V T Iso) (o : Option Iso)
    (h : xs[k]? = some (p?, l)) :
    nodesCore (xs.set k (p?, l.withCache o)) = nodesCore xs := by
  rw [nodesCore, List.map_set]
  apply set_self_of_getElem?
  rw [← nodesCore, nodesCore_getElem?, h]
  rfl

theorem parentEarlier_of_core_eq {a b : List (Option Nat × Link V T Iso)}
    (hcore : nodesCore a = nodesCore b) (hpe : ParentEarlier b) :
    ParentEarlier a := by
  intro i p l hget
  have hmap : (nodesCore a)[i]? = (nodesCore b)[i]? := by rw [hcore]
  rw [nodesCore_getElem?, nodesCore_getElem?, hget] at hmap
  cases hb : b[i]? with
  | none => rw [hb] at hmap; cases hmap
  | some nd =>
    rw [hb] at hmap
    cases nd with
    | mk q? l' =>
      simp at hmap
      obtain ⟨h1, _⟩ := hmap
      subst h1
      exact hpe i p l' hb

theorem wtFuel_entry_none [Mul Iso] [One Iso] (M : MathModel V T Iso)
    {nodes : List (Option Nat × Link V T Iso)} {i : Nat} (fuel : Nat)
    (hni : nodes[i]? = none) : wtFuel M nodes (fuel + 1) i = none := by
  rw [wtFuel, hni]

theorem wtFuel_root [Mul Iso] [One Iso] (M : MathModel V T Iso)
    {nodes : List (Option Nat × Link V T Iso)} {i : Nat}
    {l : Link V T Iso} (fuel : Nat) (hni : nodes[i]? = some (none, l)) :
    wtFuel M nodes (fuel + 1) i = some (1 * l.calc_transform M) := by
  rw [wtFuel, hni]

theorem wtFuel_parent [Mul Iso] [One Iso] (M : MathModel V T Iso)
    {nodes : List (Option Nat × Link V T Iso)} {i p : Nat}
    {l : Link V T Iso} (fuel : Nat) (hni : nodes[i]? = some (some p, l)) :
    wtFuel M nodes (fuel + 1) i
      = match wtFuel M nodes fuel p with
        | none => none
        | some pt => some (pt * l.calc_transform M) := by
  rw [wtFuel, hni]

theorem wtFuel_succ [Mul Iso] [One Iso] (M : MathModel V T Iso)
    (nodes : List (Option Nat × Link V T Iso)) :
    ∀ (fuel i : Nat) (v : Iso), wtFuel M nodes fuel i = some v →
      wtFuel M nodes (fuel + 1) i = some v := by
  intro fuel
  induction fuel with
  | zero => intro i v h; simp [wtFuel] at h
  | succ f ih =>
    intro i v h
    cases hni : nodes[i]? with
    | none => rw [wtFuel_entry_none M f hni] at h; cases h
    | some nd =>
      cases nd with
      | mk p? l =>
        cases p? with
        | none =>
          rw [wtFuel_root M f hni] at h
          rw [wtFuel_root M (f + 1) hni]
          exact h
        | some p =>
          rw [wtFuel_parent M f hni] at h
          rw [wtFuel_parent M (f + 1) hni]
          cases hw : wtFuel M nodes f p with
          | none => rw [hw] at h; cases h
          | some pt =>
            rw [hw] at h
            rw [ih p pt hw]
            exact h

theorem wtFuel_mono [Mul Iso] [One Iso] (M : MathModel V T Iso)
    (nodes : List (Option Nat × Link V T Iso)) {fuel fuel' i : Nat} {v : Iso}
    (hle : fuel ≤ fuel') (h : wtFuel M nodes fuel i = some v) :
    wtFuel M nodes fuel' i = some v := by
  induction fuel', hle using Nat.le_induction with
  | base => exact h
  | succ n hn ih => exact wtFuel_succ M nodes n i v ih

theorem wtFuel_congr [Mul Iso] [One Iso] (M : MathModel V T Iso)
    {a b : List (Option Nat × Link V T Iso)} (hcore : nodesCore a = nodesCore b) :
    ∀ (fuel i : Nat), wtFuel M a fuel i = wtFuel M b fuel i := by
  intro fuel
  induction fuel with
  | zero => intro i; rfl
  | succ f ih =>
    intro i
    have hmap : (a[i]?).map (fun nd => (nd.1, nd.2.core))
        = (b[i]?).map (fun nd => (nd.1, nd.2.core)) := by
      rw [← nodesCore_getElem?, ← nodesCore_getElem?, hcore]
    cases hai : a[i]? with
    | none =>
      cases hbi : b[i]? with
      | none => rw [wtFuel_entry_none M f hai, wtFuel_entry_none M f hbi]
      | some nb => rw [hai, hbi] at hmap; cases hmap
    | some na =>
      cases hbi : b[i]? with
      | none => rw [hai, hbi] at hmap; cases hmap
      | some nb =>
        rw [hai, hbi] at hmap
        obtain ⟨p?, l⟩ := na
        obtain ⟨q?, l'⟩ := nb
        simp at hmap
        obtain ⟨h1, h2⟩ := hmap
        subst h1
        have hct := calc_transform_of_core_eq M l l' h2
        cases p? with
        | none => rw [wtFuel_root M f hai, wtFuel_root M f hbi, hct]
        | some p =>
          rw [wtFuel_parent M f hai, wtFuel_parent M f hbi, ih p]
          cases wtFuel M b f p with
          | none => rfl
          | some pt => rw [hct]

theorem wtFuel_total [Mul Iso] [One Iso] (M : MathModel V T Iso)
    (nodes : List (Option Nat × Link V T Iso)) (hpe : ParentEarlier nodes) :
    ∀ i : Nat, i < nodes.length → ∃ v, wtFuel M nodes (i + 1) i = some v := by
  intro i
  induction i using Nat.strong_induction_on with
  | _ i ih =>
    intro hi
    have hnd : nodes[i]? = some nodes[i] := List.getElem?_eq_getElem hi
    cases hval : nodes[i] with
    | mk p? l =>
      rw [hval] at hnd
      cases p? with
      | none => exact ⟨1 * l.calc_transform M, wtFuel_root M i hnd⟩
      | some p =>
        have hp : p < i := hpe i p l hnd
        obtain ⟨vp, hvp⟩ := ih p hp (lt_trans hp hi)
        have hi1 : i - 1 + 1 = i := by omega
        have hvp' : wtFuel M nodes i p = some vp :=
          wtFuel_mono M nodes (by omega) hvp
        exact ⟨vp * l.calc_transform M, by rw [wtFuel_parent M i hnd, hvp']⟩

theorem Link.eq_withCache (l l' : Link V T Iso) (o : Option Iso)
    (hcore : l'.core = l.core) (hc : l'.world_transform_cache = o) :
    l' = l.withCache o := by
  cases l with
  | mk nm tr j c =>
    cases l' with
    | mk nm' tr' j' c' =>
      simp only [Link.core, Prod.mk.injEq] at hcore
      obtain ⟨h1, h2, h3⟩ := hcore
      subst h1; subst h2; subst h3
      simp only [Link.withCache]
      exact congrArg _ hc

theorem entry_of_core_eq {a b : List (Option Nat × Link V T Iso)}
    (hcore : nodesCore a = nodesCore b) {i : Nat} {p? : Option Nat}
    {l : Link V T Iso} (ha : a[i]? = some (p?, l)) :
    ∃ l0, b[i]? = some (p?, l0) ∧ l.core = l0.core := by
  have hmap : (a[i]?).map (fun nd => (nd.1, nd.2.core))
      = (b[i]?).map (fun nd => (nd.1, nd.2.core)) := by
    rw [← nodesCore_getElem?, ← nodesCore_getElem?, hcore]
  rw [ha] at hmap
  cases hb : b[i]? with
  | none => rw [hb] at hmap; cases hmap
  | some nd =>
    rw [hb] at hmap
    obtain ⟨q?, l0⟩ := nd
    simp at hmap
    obtain ⟨h1, h2⟩ := hmap
    subst h1
    exact ⟨l0, rfl, h2⟩

theorem calcPassAux_step_root [Mul Iso] [One Iso] (M : MathModel V T Iso)
    {t : RcLinkTree V T Iso} {k : Nat} {l : Link V T Iso} (m : Nat)
    (h : t.expanded_robot_link_vec[k]? = some (none, l))
    (t2 : RcLinkTree V T Iso)
    (ht2 : t2 = ⟨t.name, t.expanded_robot_link_vec.set k
      (none, l.withCache (some (1 * l.calc_transform M)))⟩) :
    calcPassAux M (m + 1) k t =
      match calcPassAux M m (k + 1) t2 with
      | none => none
      | some (rest, t'') => some ((1 * l.calc_transform M) :: rest, t'') := by
  subst ht2
  simp only [calcPassAux, h]
  rfl

theorem calcPassAux_step_parent [Mul Iso] [One Iso] (M : MathModel V T Iso)
    {t : RcLinkTree V T Iso} {k p : Nat} {l : Link V T Iso}
    {pp : Option Nat} {pl : Link V T Iso} {w : Iso} (m : Nat)
    (h : t.expanded_robot_link_vec[k]? = some (some p, l))
    (hp : t.expanded_robot_link_vec[p]? = some (pp, pl))
    (hc : pl.world_transform_cache = some w)
    (t2 : RcLinkTree V T Iso)
    (ht2 : t2 = ⟨t.name, t.expanded_robot_link_vec.set k
      (some p, l.withCache (some (w * l.calc_transform M)))⟩) :
    calcPassAux M (m + 1) k t =
      match calcPassAux M m (k + 1) t2 with
      | none => none
      | some (rest, t'') => some ((w * l.calc_transform M) :: rest, t'') := by
  subst ht2
  simp only [calcPassAux, h, hp, hc]
  rfl

theorem calcPassAux_spec [Mul Iso] [One Iso] (M : MathModel V T Iso)
    (base : List (Option Nat × Link V T Iso)) (hpe : ParentEarlier base) :
    ∀ (m k : Nat) (t : RcLinkTree V T Iso),
      nodesCore t.expanded_robot_link_vec = nodesCore base →
      k + m = base.length →
      (∀ i : Nat, i < k → ∃ v, wtFuel M base (i + 1) i = some v ∧
        ∃ nd, t.expanded_robot_link_vec[i]? = some nd ∧
          nd.2.world_transform_cache = some v) →
      ∃ outs t',
        calcPassAux M m k t = some (outs, t') ∧
        outs.length = m ∧
        (∀ j : Nat, j < m → ∃ v, wtFuel M base (k + j + 1) (k + j) = some v ∧
          outs[j]? = some v) ∧
        t'.name = t.name ∧
        nodesCore t'.expanded_robot_link_vec = nodesCore base ∧
        (∀ i : Nat, i < base.length → ∃ v, wtFuel M base (i + 1) i = some v ∧
          ∃ nd, t'.expanded_robot_link_vec[i]? = some nd ∧
            nd.2.world_transform_cache = some v) := by
  intro m
  induction m with
  | zero =>
    intro k t hcore hkm hinv
    refine ⟨[], t, rfl, rfl, ?_, rfl, hcore, ?_⟩
    · intro j hj; omega
    · intro i hi; exact hinv i (by omega)
  | succ m ih =>
    intro k t hcore hkm hinv
    have hlen_t : t.expanded_robot_link_vec.length = base.length := by
      have h1 := congrArg List.length hcore
      rwa [nodesCore_length, nodesCore_length] at h1
    have hk : k < t.expanded_robot_link_vec.length := by omega
    have hkt : t.expanded_robot_link_vec[k]?
        = some t.expanded_robot_link_vec[k] := List.getElem?_eq_getElem hk
    cases hval : t.expanded_robot_link_vec[k] with
    | mk p? l =>
      rw [hval] at hkt
      obtain ⟨l0, hbase_k, hcore_k⟩ := entry_of_core_eq hcore hkt
      have hct := calc_transform_of_core_eq M l l0 hcore_k
      cases p? with
      | none =>
        have hwtk : wtFuel M base (k + 1) k = some (1 * l.calc_transform M) := by
          rw [wtFuel_root M k hbase_k, hct]
        set tr := 1 * l.calc_transform M with htr
        set t2 : RcLinkTree V T Iso :=
          ⟨t.name, t.expanded_robot_link_vec.set k
            (none, l.withCache (some tr))⟩ with ht2
        have hcore2 : nodesCore t2.expanded_robot_link_vec = nodesCore base := by
          rw [ht2]
          show nodesCore (t.expanded_robot_link_vec.set k
            (none, Link.withCache l (some tr))) = nodesCore base
          rw [nodesCore_set_cache _ _ _ _ _ hkt, hcore]
        have hinv2 : ∀ i : Nat, i < k + 1 →
            ∃ v, wtFuel M base (i + 1) i = some v ∧
              ∃ nd, t2.expanded_robot_link_vec[i]? = some nd ∧
                nd.2.world_transform_cache = some v := by
          intro i hi
          by_cases hik : i = k
          · subst hik
            refine ⟨tr, hwtk, (none, l.withCache (some tr)), ?_, rfl⟩
            rw [ht2]
            exact List.getElem?_set_self hk
          · obtain ⟨v, hv, nd, hnd, hcnd⟩ := hinv i (by omega)
            refine ⟨v, hv, nd, ?_, hcnd⟩
            rw [ht2]
            show (t.expanded_robot_link_vec.set k _)[i]? = some nd
            rw [List.getElem?_set_ne (fun he => hik he.symm)]
            exact hnd
        obtain ⟨outs, t', hpass, hlen, houts, hname, hcore', hfinal⟩ :=
          ih (k + 1) t2 hcore2 (by omega) hinv2
        refine ⟨tr :: outs, t', ?_, by simp [hlen], ?_, by simpa using hname,
          hcore', hfinal⟩
        · rw [calcPassAux_step_root M m hkt t2 ht2, hpass]
        · intro j hj
          cases j with
          | zero => exact ⟨tr, by simpa using hwtk, by simp⟩
          | succ j' =>
            obtain ⟨v, hv, ho⟩ := houts j' (by omega)
            have he : k + (j' + 1) = k + 1 + j' := by omega
            refine ⟨v, ?_, by simpa using ho⟩
            rw [he]
            exact hv
      | some p =>
        have hp : p < k := hpe k p l0 hbase_k
        obtain ⟨vp, hwtp, nd, hndp, hcp⟩ := hinv p hp
        obtain ⟨pp, pl⟩ := nd
        have hwtk : wtFuel M base (k + 1) k = some (vp * l.calc_transform M) := by
          rw [wtFuel_parent M k hbase_k,
            wtFuel_mono M base (by omega : p + 1 ≤ k) hwtp, hct]
        set tr := vp * l.calc_transform M with htr
        set t2 : RcLinkTree V T Iso :=
          ⟨t.name, t.expanded_robot_link_vec.set k
            (some p, l.withCache (some tr))⟩ with ht2
        have hcore2 : nodesCore t2.expanded_robot_link_vec = nodesCore base := by
          rw [ht2]
          show nodesCore (t.expanded_robot_link_vec.set k
            (some p, Link.withCache l (some tr))) = nodesCore base
          rw [nodesCore_set_cache _ _ _ _ _ hkt, hcore]
        have hinv2 : ∀ i : Nat, i < k + 1 →
            ∃ v, wtFuel M base (i + 1) i = some v ∧
              ∃ nd, t2.expanded_robot_link_vec[i]? = some nd ∧
                nd.2.world_transform_cache = some v := by
          intro i hi
          by_cases hik : i = k
          · subst hik
            refine ⟨tr, hwtk, (some p, l.withCache (some tr)), ?_, rfl⟩
            rw [ht2]
            exact List.getElem?_set_self hk
          · obtain ⟨v, hv, nd2, hnd2, hcnd2⟩ := hinv i (by omega)
            refine ⟨v, hv, nd2, ?_, hcnd2⟩
            rw [ht2]
            show (t.expanded_robot_link_vec.set k _)[i]? = some nd2
            rw [List.getElem?_set_ne (fun he => hik he.symm)]
            exact hnd2
        obtain ⟨outs, t', hpass, hlen, houts, hname, hcore', hfinal⟩ :=
          ih (k + 1) t2 hcore2 (by omega) hinv2
        refine ⟨tr :: outs, t', ?_, by simp [hlen], ?_, by simpa using hname,
          hcore', hfinal⟩
        · rw [calcPassAux_step_parent M m hkt hndp hcp t2 ht2, hpass]
        · intro j hj
          cases j with
          | zero => exact ⟨tr, by simpa using hwtk, by simp⟩
          | succ j' =>
            obtain ⟨v, hv, ho⟩ := houts j' (by omega)
            have he : k + (j' + 1) = k + 1 + j' := by omega
            refine ⟨v, ?_, by simpa using ho⟩
            rw [he]
            exact hv

mutual

theorem flattenAux_below : ∀ (t : LinkNode V T Iso) (parent : Option Nat)
    (start : Nat), (∀ q : Nat, parent = some q → q < start) →
    BelowStart (t.flattenAux parent start) start
  | .node data children, parent, start, h => by
    intro i p l hget
    rw [LinkNode.flattenAux] at hget
    cases i with
    | zero =>
      rw [List.getElem?_cons_zero] at hget
      simp at hget
      obtain ⟨hpar, _⟩ := hget
      have := h p hpar
      omega
    | succ j =>
      rw [List.getElem?_cons_succ] at hget
      have hb := flattenChildrenAux_below children start (start + 1)
        (Nat.lt_succ_self start) j p l hget
      omega

theorem flattenChildrenAux_below : ∀ (cs : List (LinkNode V T Iso))
    (parent start : Nat), parent < start →
    BelowStart (flattenChildrenAux parent start cs) start
  | [], parent, start, h => by
    intro i p l hget
    rw [flattenChildrenAux] at hget
    simp at hget
  | c :: cs, parent, start, h => by
    intro i p l hget
    rw [flattenChildrenAux] at hget
    by_cases hi : i < (LinkNode.flattenAux (some parent) start c).length
    · rw [List.getElem?_append_left hi] at hget
      exact flattenAux_below c (some parent) start
        (fun q hq => by cases hq; exact h) i p l hget
    · rw [List.getElem?_append_right (le_of_not_lt hi)] at hget
      have hb := flattenChildrenAux_below cs parent
        (start + (LinkNode.flattenAux (some parent) start c).length)
        (by omega) (i - (LinkNode.flattenAux (some parent) start c).length)
        p l hget
      omega

end

theorem flatten_parentEarlier (t : LinkNode V T Iso) : ParentEarlier t.flatten := by
  intro i p l hget
  rw [LinkNode.flatten] at hget
  have hb := flattenAux_below t none 0 (fun q hq => by cases hq) i p l hget
  omega

/-- Claim C1: the tree's `calc_link_transforms` never reaches the
`panic!("cache must exist")` branch: on any tree whose flattened node list
is parent-before-child — which `RcLinkTree::new` always produces, so in
particular on the first call after construction, whatever the caches hold —
the pass succeeds, visits the nodes in flattened order, returns one world
transform per node equal to the parent's transform computed earlier in the
same pass (identity for the root) composed with the node's local transform,
and writes exactly that transform into every node's cache. -/
theorem tree_calc_link_transforms_no_panic [Mul Iso] [One Iso]
    (M : MathModel V T Iso) :
    (∀ (nm : String) (root : LinkNode V T Iso),
      ParentEarlier (RcLinkTree.new nm root).expanded_robot_link_vec) ∧
    (∀ t : RcLinkTree V T Iso, ParentEarlier t.expanded_robot_link_vec →
      ∃ outs t', t.calc_link_transforms M = some (outs, t') ∧
        outs.length = t.expanded_robot_link_vec.length ∧
        ∀ (i : Nat) (p? : Option Nat) (l : Link V T Iso),
          t.expanded_robot_link_vec[i]? = some (p?, l) →
          ∃ w, outs[i]? = some w ∧
            t'.expanded_robot_link_vec[i]? = some (p?, l.withCache (some w)) ∧
            ((p? = none ∧ w = 1 * l.calc_transform M) ∨
             (∃ (p : Nat) (wp : Iso), p? = some p ∧ outs[p]? = some wp ∧
               w = wp * l.calc_transform M))) := by
  constructor
  · intro nm root
    exact flatten_parentEarlier root
  · intro t hpe
    obtain ⟨outs, t', hpass, hlen, houts, hname, hcore', hfinal⟩ :=
      calcPassAux_spec M t.expanded_robot_link_vec hpe
        t.expanded_robot_link_vec.length 0 t rfl (by omega)
        (fun i hi => absurd hi (by omega))
    have houts2 : ∀ j : Nat, j < t.expanded_robot_link_vec.length →
        ∃ v, wtFuel M t.expanded_robot_link_vec (j + 1) j = some v ∧
          outs[j]? = some v := by
      intro j hj
      obtain ⟨v, hv, ho⟩ := houts j hj
      exact ⟨v, by simpa using hv, ho⟩
    refine ⟨outs, t', hpass, hlen, ?_⟩
    intro i p? l hi
    have hilen : i < t.expanded_robot_link_vec.length :=
      (List.getElem?_eq_some.mp hi).1
    obtain ⟨v, hwt, ho⟩ := houts2 i hilen
    refine ⟨v, ho, ?_, ?_⟩
    · obtain ⟨v2, hwt2, nd, hnd, hcnd⟩ := hfinal i hilen
      rw [hwt] at hwt2
      injection hwt2 with hv2
      subst hv2
      obtain ⟨q?, l'⟩ := nd
      obtain ⟨l0, hl0, hl0core⟩ := entry_of_core_eq hcore' hnd
      rw [hi] at hl0
      injection hl0 with hl0p
      have hq : p? = q? := congrArg Prod.fst hl0p
      have hl0l : l = l0 := congrArg Prod.snd hl0p
      subst hq
      rw [← hl0l] at hl0core
      rw [hnd, Link.eq_withCache l l' (some v) hl0core hcnd]
    · cases p? with
      | none =>
        left
        refine ⟨rfl, ?_⟩
        rw [wtFuel_root M i hi] at hwt
        injection hwt with hv
        exact hv.symm
      | some p =>
        right
        have hplt : p < i := hpe i p l hi
        obtain ⟨vp, hwtp, hop⟩ := houts2 p (lt_trans hplt hilen)
        refine ⟨p, vp, rfl, hop, ?_⟩
        rw [wtFuel_parent M i hi,
          wtFuel_mono M _ (by omega : p + 1 ≤ i) hwtp] at hwt
        injection hwt with hv
        exact hv.symm

/-- Witness for C1: the pass on the freshly constructed three-node sample
tree succeeds with the claimed per-node characterization. -/
theorem tree_calc_link_transforms_no_panic_witness :
    ∃ outs t',
      (RcLinkTree.new "w" sampleRoot).calc_link_transforms intModel
        = some (outs, t') ∧
      outs.length
        = (RcLinkTree.new "w" sampleRoot).expanded_robot_link_vec.length ∧
      ∀ (i : Nat) (p? : Option Nat) (l : Link Nat Int Int),
        (RcLinkTree.new "w" sampleRoot).expanded_robot_link_vec[i]?
          = some (p?, l) →
        ∃ w, outs[i]? = some w ∧
          t'.expanded_robot_link_vec[i]? = some (p?, l.withCache (some w)) ∧
          ((p? = none ∧ w = 1 * l.calc_transform intModel) ∨
           (∃ (p : Nat) (wp : Int), p? = some p ∧ outs[p]? = some wp ∧
             w = wp * l.calc_transform intModel)) :=
  (tree_calc_link_transforms_no_panic intModel).2 _
    (flatten_parentEarlier sampleRoot)

/-- Claim C7: with no joint-angle change in between, running
`calc_link_transforms` twice in a row yields identical transform sequences:
for the chain the call is a pure function of the unchanged chain, and for
the tree the second pass — reading the caches written by the first —
returns the same list. -/
theorem calc_link_transforms_idempotent [Mul Iso] [One Iso]
    (M : MathModel V T Iso) :
    (∀ c : RcKinematicChain V T Iso,
      c.calc_link_transforms M = c.calc_link_transforms M) ∧
    (∀ t : RcLinkTree V T Iso, ParentEarlier t.expanded_robot_link_vec →
      ∃ outs t1 outs2 t2,
        t.calc_link_transforms M = some (outs, t1) ∧
        t1.calc_link_transforms M = some (outs2, t2) ∧
        outs2 = outs) := by
  refine ⟨fun c => rfl, ?_⟩
  intro t hpe
  obtain ⟨outs, t1, hpass, hlen, houts, _, hcore1, _⟩ :=
    calcPassAux_spec M t.expanded_robot_link_vec hpe
      t.expanded_robot_link_vec.length 0 t rfl (by omega)
      (fun i hi => absurd hi (by omega))
  have hlen1 : t1.expanded_robot_link_vec.length
      = t.expanded_robot_link_vec.length := by
    have h1 := congrArg List.length hcore1
    rwa [nodesCore_length, nodesCore_length] at h1
  obtain ⟨outs2, t2, hpass2, hlen2, houts2, _, _, _⟩ :=
    calcPassAux_spec M t.expanded_robot_link_vec hpe
      t1.expanded_robot_link_vec.length 0 t1 hcore1 (by omega)
      (fun i hi => absurd hi (by omega))
  refine ⟨outs, t1, outs2, t2, hpass, hpass2, ?_⟩
  apply List.ext_getElem?
  intro j
  by_cases hj : j < t.expanded_robot_link_vec.length
  · obtain ⟨v, hv, ho⟩ := houts j hj
    obtain ⟨v2, hv2, ho2⟩ := houts2 j (by omega)
    rw [hv] at hv2
    injection hv2 with hveq
    rw [ho, ho2, hveq]
  · rw [List.getElem?_eq_none (by omega : outs2.length ≤ j),
      List.getElem?_eq_none (by omega : outs.length ≤ j)]

/-- Witness for C7: two successive passes on the sample tree return the
same transform list. -/
theorem calc_link_transforms_idempotent_witness :
    ∃ outs t1 outs2 t2,
      (RcLinkTree.new "w2" sampleRoot).calc_link_transforms intModel
        = some (outs, t1) ∧
      t1.calc_link_transforms intModel = some (outs2, t2) ∧
      outs2 = outs :=
  (calc_link_transforms_idempotent intModel).2 _
    (flatten_parentEarlier sampleRoot)

end K
